import Mathlib

/-!
Verification development for the SHiFT-code aggregation pipeline
(`scripts/fetch-codes.mjs`, current revision).

The script fetches several web pages, extracts 5×5 hyphen-grouped codes,
reconciles them across an authoritative source ("PC Gamer") and four
corroborating sources, and writes a sorted JSON feed.

The shallow embedding below translates the script's reconciliation logic.
External collaborators are modelled as parameters:
  * the HTTP fetch of a source is an `Env : Source → Option Page`
    (`none` models a thrown fetch error / non-2xx status, caught by the
    per-source `try`/`catch`);
  * a successful fetch yields a `Page`, carrying the result of
    `html.match(codeRegex) || []` (the `codes` list, all occurrences in
    order, duplicates included) and the site extractor applied to that
    html (`extract`), i.e. `siteExtractors[src.type](html, ·)`;
  * instants (JavaScript `Date` values / ISO strings) are epoch
    milliseconds as `Int`; `a.expires` is `Option Int` with `none` for
    `null`;
  * `new Date()` at run time is a parameter `now : Int`.

JavaScript `Map`s are association lists in insertion order: `Map.set`
overwrites in place (keeping the original position) or appends, `Map.get`
/ `Map.has` search by key.  `Array.prototype.sort` with the script's
comparator `(a, b) => ax - bx` (where a missing expiry maps to
`Infinity`, and `Infinity - Infinity` is `NaN`, which sort treats as 0)
is the stable sort by the total preorder `entryLE`; it is modelled by a
stable insertion sort.
-/

namespace ShiftCodes

/-- A line of the `SOURCES` registry: url, display name, extractor format
tag (the `type` field) and priority. -/
structure Source where
  url : String
  name : String
  fmt : String
  priority : Nat
deriving DecidableEq

/-- The `SOURCES` array of the script. -/
def SOURCES : List Source :=
  [⟨"https://www.pcgamer.com/games/fps/borderlands-4-shift-codes/", "PC Gamer", "table", 1⟩,
   ⟨"https://www.gamesradar.com/games/borderlands/borderlands-4-shift-codes-golden-keys/",
     "GamesRadar", "gamesradar", 2⟩,
   ⟨"https://mentalmars.com/game-news/borderlands-4-shift-codes/", "MentalMars", "table", 2⟩,
   ⟨"https://www.pcgamesn.com/borderlands-4/shift-codes", "PCGamesN", "pcgamesn", 2⟩,
   ⟨"https://www.polygon.com/borderlands-4-active-shift-codes-redeem/", "Polygon", "polygon", 2⟩]

/-- One value of the `SPECIAL_CODES` override table. -/
structure SpecialEntry where
  reward : String
  expires : Option Int
  source : String
deriving DecidableEq

/-- Epoch milliseconds of `"2030-12-31T23:59:00-06:00"`, the `expires`
of the hardcoded Break Free entry. -/
def specialExpiresMillis : Int := 1925013540000

/-- The `SPECIAL_CODES` table: special known codes exempt from the
strict date requirements, keyed by code. -/
def SPECIAL_CODES (code : String) : Option SpecialEntry :=
  if code == "JS63J-JSCWJ-CFTBW-3TJ3J-WJS5R" then
    some ⟨"Break Free Cosmetic Pack", some specialExpiresMillis,
      "https://www.pcgamer.com/games/fps/borderlands-4-shift-codes/"⟩
  else if code == "T9RJB-BFKRR-3RBTW-B33TB-KCZB9" then
    some ⟨"1x Golden Key", none,
      "https://www.pcgamer.com/games/fps/borderlands-4-shift-codes/"⟩
  else if code == "39FB3-SHWXS-RRWZK-533TB-JHJBC" then
    some ⟨"1x Golden Key", none,
      "https://www.pcgamer.com/games/fps/borderlands-4-shift-codes/"⟩
  else none

/-- `isKnownPermanent(code)`: the hand-maintained list of permanent
codes. -/
def isKnownPermanent (code : String) : Bool :=
  ["T9RJB-BFKRR-3RBTW-B33TB-KCZB9", "39FB3-SHWXS-RRWZK-533TB-JHJBC"].contains code

/-- `isCodeExpired(expirationDate)`: no expiration never expires,
otherwise expired iff `expireDate <= now`. -/
def isCodeExpired (now : Int) (expirationDate : Option Int) : Bool :=
  match expirationDate with
  | none => false
  | some e => decide (e ≤ now)

/-- The record returned by a site extractor for one `(html, code)` pair. -/
structure ExtractResult where
  reward : String
  expires : Option Int
  raw : String
  hasValidDate : Bool

/-- The observable content of one successfully fetched page:
`codes` is `html.match(codeRegex) || []` (all occurrences, in order),
`extract` is the site's extractor partially applied to the html. -/
structure Page where
  codes : List String
  extract : String → ExtractResult

/-- Fetch collaborator: `none` models a fetch failure for that source
(network error or non-2xx status, caught per source). -/
abbrev Env : Type := Source → Option Page

/-- A reconciled code record as stored in the maps and emitted in the
feed (`{code, reward, expires, source, sites}`). -/
structure CodeEntry where
  code : String
  reward : String
  expires : Option Int
  source : String
  sites : List String
deriving DecidableEq

/-- An `otherSiteCodes` value: the record plus its sighting `count` and
the `hasValidDate` flag of the first sighting. -/
structure OtherEntry where
  entry : CodeEntry
  count : Nat
  hasValidDate : Bool
deriving DecidableEq

/-- `Map.get`: first binding of the key, if any. -/
def mget {α : Type} : List (String × α) → String → Option α
  | [], _ => none
  | p :: rest, k => if p.1 == k then some p.2 else mget rest k

/-- `Map.has`. -/
def mhas {α : Type} : List (String × α) → String → Bool
  | [], _ => false
  | p :: rest, k => p.1 == k || mhas rest k

/-- `Map.set`: overwrite in place (keeping the binding's position) or
append a new binding. -/
def mset {α : Type} : List (String × α) → String → α → List (String × α)
  | [], k, v => [(k, v)]
  | p :: rest, k, v => if p.1 == k then (k, v) :: rest else p :: mset rest k v

/-- `SOURCES.find(s => s.name === "PC Gamer")`. -/
def pcGamerSource? : Option Source := SOURCES.find? (fun s => s.name == "PC Gamer")

/-- Step 1 body for one extracted code: special codes bypass the rules
and install the override record tagged "(Special)"; otherwise the code
is rejected when it has neither an expiry nor a date signal (unless
known-permanent), or when its expiry is in the past; an accepted code is
stored with `sites = ["PC Gamer"]`. -/
def pass1Code (now : Int) (srcUrl : String) (page : Page)
    (m : List (String × CodeEntry)) (code : String) : List (String × CodeEntry) :=
  match SPECIAL_CODES code with
  | some special =>
      mset m code ⟨code, special.reward, special.expires, special.source, ["PC Gamer (Special)"]⟩
  | none =>
      let result := page.extract code
      if result.expires.isNone && !result.hasValidDate && !isKnownPermanent code then m
      else if result.expires.isSome && isCodeExpired now result.expires then m
      else mset m code ⟨code, result.reward, result.expires, srcUrl, ["PC Gamer"]⟩

/-- Step 1: process the authoritative source, building `pcGamerCodes`.
A failed fetch leaves the map empty. -/
def pass1 (now : Int) (env : Env) : List (String × CodeEntry) :=
  match pcGamerSource? with
  | none => []
  | some src =>
      match env src with
      | none => []
      | some page => page.codes.foldl (pass1Code now src.url page) []

/-- The non-authoritative sources (`SOURCES.filter(s => s.name !== "PC Gamer")`). -/
def otherSources : List Source := SOURCES.filter (fun s => s.name != "PC Gamer")

/-- The candidate `codeData` computed in Step 2 for one sighting:
special codes bypass the rejection rules; otherwise the Step 1 rejection
rules apply; `none` means the sighting was rejected (`continue`). -/
def pass2Candidate (now : Int) (srcName srcUrl : String) (page : Page)
    (code : String) : Option OtherEntry :=
  match SPECIAL_CODES code with
  | some special =>
      some ⟨⟨code, special.reward, special.expires, special.source, [srcName]⟩, 1, true⟩
  | none =>
      let result := page.extract code
      if result.expires.isNone && !result.hasValidDate && !isKnownPermanent code then none
      else if result.expires.isSome && isCodeExpired now result.expires then none
      else some ⟨⟨code, result.reward, result.expires, srcUrl, [srcName]⟩, 1, result.hasValidDate⟩

/-- Step 2 body for one extracted code: skip codes already handled by
PC Gamer; a first accepted sighting inserts the candidate, a repeat
accepted sighting increments `count` and appends the site name (keeping
the first sighting's record values). -/
def pass2Code (now : Int) (trusted : List (String × CodeEntry)) (srcName srcUrl : String)
    (page : Page) (m : List (String × OtherEntry)) (code : String) :
    List (String × OtherEntry) :=
  if mhas trusted code then m
  else
    match pass2Candidate now srcName srcUrl page code with
    | none => m
    | some codeData =>
        match mget m code with
        | none => mset m code codeData
        | some existing =>
            mset m code
              ⟨⟨existing.entry.code, existing.entry.reward, existing.entry.expires,
                existing.entry.source, existing.entry.sites ++ [srcName]⟩,
               existing.count + 1, existing.hasValidDate⟩

/-- Step 2, one source: a failed fetch contributes nothing. -/
def pass2Source (now : Int) (trusted : List (String × CodeEntry)) (env : Env)
    (m : List (String × OtherEntry)) (src : Source) : List (String × OtherEntry) :=
  match env src with
  | none => m
  | some page => page.codes.foldl (pass2Code now trusted src.name src.url page) m

/-- Step 2: process all non-authoritative sources, building
`otherSiteCodes`. -/
def pass2 (now : Int) (trusted : List (String × CodeEntry)) (env : Env) :
    List (String × OtherEntry) :=
  otherSources.foldl (pass2Source now trusted env) []

/-- Step 3: `finalEntries` — all PC Gamer codes, then every other-site
code with `count >= 2` (its `count`/`hasValidDate` fields are not part
of the record type modelled here). -/
def finalEntries (trusted : List (String × CodeEntry))
    (others : List (String × OtherEntry)) : List (String × CodeEntry) :=
  let base := trusted.foldl (fun acc p => mset acc p.1 p.2) []
  others.foldl (fun acc p => if 2 ≤ p.2.count then mset acc p.1 p.2.entry else acc) base

/-- Order on expiry values: a missing expiry maps to `Infinity` in the
comparator, so it compares after every dated instant and ties with
another missing expiry (the comparator's `Infinity - Infinity` is `NaN`,
treated as 0 by `sort`). -/
def optLE : Option Int → Option Int → Bool
  | some x, some y => decide (x ≤ y)
  | some _, none => true
  | none, some _ => false
  | none, none => true

/-- The sort order of the feed comparator `(a, b) => ax - bx` with
`ax = a.expires ? getTime(a.expires) : Infinity`: dated entries
ascending by instant, null-expiry entries after all dated ones. -/
def entryLE (a b : CodeEntry) : Bool := optLE a.expires b.expires

/-- Stable insertion into a sorted list: the new element goes before the
first element it compares `≤` to, hence after all earlier-inserted
elements tied with it — the placement a stable sort gives. -/
def insertLE : CodeEntry → List CodeEntry → List CodeEntry
  | a, [] => [a]
  | a, b :: rest => if entryLE a b then a :: b :: rest else b :: insertLE a rest

/-- Stable sort by `entryLE`, modelling `Array.prototype.sort` (stable
per ES2019) with the feed comparator. -/
def sortByExpiry : List CodeEntry → List CodeEntry
  | [] => []
  | a :: rest => insertLE a (sortByExpiry rest)

/-- The `codes` array of the emitted payload for a run with fetch
results `env` and run clock `now`. -/
def feedCodes (env : Env) (now : Int) : List CodeEntry :=
  sortByExpiry ((finalEntries (pass1 now env) (pass2 now (pass1 now env) env)).map (·.2))

/-- The emitted payload `{updated, codes}`. -/
structure Feed where
  updated : Int
  codes : List CodeEntry

/-- Build the payload: `updated` is the write-time clock reading
(`new Date().toISOString()`), the codes array depends on the fetch
results and the run clock used by the expiry checks. -/
def mkPayload (env : Env) (now stamp : Int) : Feed :=
  ⟨stamp, feedCodes env now⟩

/-! ### Association-map lemmas -/

theorem mget_mset_self {α : Type} (m : List (String × α)) (k : String) (v : α) :
    mget (mset m k v) k = some v := by
  induction m with
  | nil => simp [mset, mget]
  | cons p rest ih =>
      by_cases h : (p.1 == k) = true
      · simp [mset, h, mget]
      · simp [mset, h, mget, ih]

theorem mget_mset_ne {α : Type} (m : List (String × α)) (k k' : String) (v : α)
    (h : k' ≠ k) : mget (mset m k v) k' = mget m k' := by
  induction m with
  | nil =>
      have : (k == k') = false := by
        simp only [beq_eq_false_iff_ne]
        exact fun hk => h hk.symm
      simp [mset, mget, this]
  | cons p rest ih =>
      by_cases hp : (p.1 == k) = true
      · have hpk : p.1 = k := by simpa using hp
        have : (k == k') = false := by
          simp only [beq_eq_false_iff_ne]
          exact fun hk => h hk.symm
        have hpk' : (p.1 == k') = false := by
          simp only [beq_eq_false_iff_ne, hpk]
          exact fun hk => h hk.symm
        simp [mset, hp, mget, this, hpk']
      · simp [mset, hp, mget, ih]

theorem mhas_eq_isSome_mget {α : Type} (m : List (String × α)) (k : String) :
    mhas m k = (mget m k).isSome := by
  induction m with
  | nil => simp [mhas, mget]
  | cons p rest ih =>
      by_cases h : (p.1 == k) = true
      · simp [mhas, mget, h]
      · simp [mhas, mget, h, ih]

theorem mem_of_mget {α : Type} (m : List (String × α)) (k : String) (v : α)
    (h : mget m k = some v) : (k, v) ∈ m := by
  induction m with
  | nil => simp [mget] at h
  | cons p rest ih =>
      by_cases hp : (p.1 == k) = true
      · have hpk : p.1 = k := by simpa using hp
        simp only [mget, hp, if_true] at h
        have : p = (k, v) := by
          cases p
          simp_all
        simp [this]
      · simp only [mget, hp, if_false] at h
        exact List.mem_cons_of_mem _ (ih h)

/-- The keys of a map, in insertion order. -/
def mkeys {α : Type} (m : List (String × α)) : List String := m.map (·.1)

theorem mhas_iff_mem_mkeys {α : Type} (m : List (String × α)) (k : String) :
    mhas m k = true ↔ k ∈ mkeys m := by
  induction m with
  | nil => simp [mhas, mkeys]
  | cons p rest ih =>
      simp only [mhas, mkeys, List.map_cons, List.mem_cons, Bool.or_eq_true, beq_iff_eq]
      constructor
      · rintro (h | h)
        · exact Or.inl h.symm
        · exact Or.inr (by simpa [mkeys] using ih.1 h)
      · rintro (h | h)
        · exact Or.inl h.symm
        · exact Or.inr (ih.2 (by simpa [mkeys] using h))

theorem mkeys_mset_of_mhas {α : Type} (m : List (String × α)) (k : String) (v : α)
    (h : mhas m k = true) : mkeys (mset m k v) = mkeys m := by
  induction m with
  | nil => simp [mhas] at h
  | cons p rest ih =>
      by_cases hp : (p.1 == k) = true
      · have : p.1 = k := by simpa using hp
        simp [mset, mkeys, hp, this]
      · simp only [mhas, hp, Bool.false_or] at h
        simp [mset, mkeys, hp] at ih ⊢
        exact ih h

theorem mkeys_mset_of_not_mhas {α : Type} (m : List (String × α)) (k : String) (v : α)
    (h : mhas m k = false) : mkeys (mset m k v) = mkeys m ++ [k] := by
  induction m with
  | nil => simp [mset, mkeys]
  | cons p rest ih =>
      simp only [mhas, Bool.or_eq_false_iff] at h
      simp [mset, mkeys, h.1] at ih ⊢
      exact ih h.2

theorem nodup_mkeys_mset {α : Type} (m : List (String × α)) (k : String) (v : α)
    (h : (mkeys m).Nodup) : (mkeys (mset m k v)).Nodup := by
  by_cases hk : mhas m k = true
  · rw [mkeys_mset_of_mhas m k v hk]
    exact h
  · rw [mkeys_mset_of_not_mhas m k v (by simpa using hk)]
    have hknot : k ∉ mkeys m := by
      intro hmem
      exact hk ((mhas_iff_mem_mkeys m k).2 hmem)
    simp [List.nodup_append, h, hknot]

/-- Pointwise invariant over all bindings of a map. -/
def MapInv {α : Type} (P : String → α → Prop) (m : List (String × α)) : Prop :=
  ∀ p ∈ m, P p.1 p.2

theorem mapInv_nil {α : Type} (P : String → α → Prop) : MapInv P [] := by
  intro p hp
  simp at hp

theorem mem_mset {α : Type} {p : String × α} :
    ∀ (m : List (String × α)) (k : String) (v : α), p ∈ mset m k v → p = (k, v) ∨ p ∈ m
  | [], k, v, h => by
      simp [mset] at h
      exact Or.inl h
  | q :: rest, k, v, h => by
      simp only [mset] at h
      by_cases hq : (q.1 == k) = true
      · rw [if_pos hq] at h
        cases h with
        | head => exact Or.inl rfl
        | tail _ hmem => exact Or.inr (List.mem_cons_of_mem _ hmem)
      · rw [if_neg hq] at h
        cases h with
        | head => exact Or.inr (List.mem_cons_self _ _)
        | tail _ hmem =>
            rcases mem_mset rest k v hmem with h2 | h2
            · exact Or.inl h2
            · exact Or.inr (List.mem_cons_of_mem _ h2)

theorem mapInv_mset {α : Type} {P : String → α → Prop} {m : List (String × α)}
    (hm : MapInv P m) (k : String) (v : α) (hv : P k v) : MapInv P (mset m k v) := by
  intro p hp
  rcases mem_mset m k v hp with h | h
  · rw [h]
    exact hv
  · exact hm _ h

theorem mapInv_mget {α : Type} {P : String → α → Prop} {m : List (String × α)}
    (hm : MapInv P m) {k : String} {v : α} (h : mget m k = some v) : P k v :=
  hm (k, v) (mem_of_mget m k v h)

theorem mhas_mset_self {α : Type} (m : List (String × α)) (k : String) (v : α) :
    mhas (mset m k v) k = true := by
  rw [mhas_eq_isSome_mget, mget_mset_self]
  rfl

theorem mhas_mset_ne {α : Type} (m : List (String × α)) (k k' : String) (v : α)
    (h : k' ≠ k) : mhas (mset m k v) k' = mhas m k' := by
  rw [mhas_eq_isSome_mget, mhas_eq_isSome_mget, mget_mset_ne m k k' v h]

theorem mhas_mset_of_mhas {α : Type} (m : List (String × α)) (k : String) (v : α)
    (X : String) (h : mhas m X = true) : mhas (mset m k v) X = true := by
  by_cases hx : X = k
  · rw [hx]
    exact mhas_mset_self m k v
  · rw [mhas_mset_ne m k X v hx]
    exact h

/-! ### Generic fold lemmas

Both per-code loop bodies either leave the map unchanged (a skipped or
rejected sighting) or `Map.set` the processed code's key.  The fold
lemmas below only use that shape. -/

/-- The loop body touches at most the processed code's key. -/
def StepShape {α : Type} (f : List (String × α) → String → List (String × α)) : Prop :=
  ∀ m c, f m c = m ∨ ∃ v, f m c = mset m c v

theorem foldl_mget_not_mem {α : Type} {f : List (String × α) → String → List (String × α)}
    (hstep : StepShape f) (codes : List String) (m : List (String × α)) (X : String)
    (hX : X ∉ codes) : mget (codes.foldl f m) X = mget m X := by
  induction codes generalizing m with
  | nil => rfl
  | cons c rest ih =>
      have hcx : X ≠ c := fun h => hX (h ▸ List.mem_cons_self _ _)
      have hrest : X ∉ rest := fun h => hX (List.mem_cons_of_mem _ h)
      rw [List.foldl_cons, ih _ hrest]
      rcases hstep m c with h | ⟨v, h⟩
      · rw [h]
      · rw [h, mget_mset_ne m c X v hcx]

theorem foldl_mhas_mono {α : Type} {f : List (String × α) → String → List (String × α)}
    (hstep : StepShape f) (codes : List String) (m : List (String × α)) (X : String)
    (h : mhas m X = true) : mhas (codes.foldl f m) X = true := by
  induction codes generalizing m with
  | nil => exact h
  | cons c rest ih =>
      rw [List.foldl_cons]
      apply ih
      rcases hstep m c with hc | ⟨v, hc⟩
      · rw [hc]; exact h
      · rw [hc]; exact mhas_mset_of_mhas m c v X h

theorem foldl_nodup_mkeys {α : Type} {f : List (String × α) → String → List (String × α)}
    (hstep : StepShape f) (codes : List String) (m : List (String × α))
    (h : (mkeys m).Nodup) : (mkeys (codes.foldl f m)).Nodup := by
  induction codes generalizing m with
  | nil => exact h
  | cons c rest ih =>
      rw [List.foldl_cons]
      apply ih
      rcases hstep m c with hc | ⟨v, hc⟩
      · rw [hc]; exact h
      · rw [hc]; exact nodup_mkeys_mset m c v h

theorem foldl_pres {α β : Type} {Q : α → Prop} {f : α → β → α}
    (hf : ∀ a b, Q a → Q (f a b)) (l : List β) (a : α) (h : Q a) : Q (l.foldl f a) := by
  induction l generalizing a with
  | nil => exact h
  | cons b rest ih =>
      rw [List.foldl_cons]
      exact ih _ (hf a b h)

theorem pass1Code_shape (now : Int) (srcUrl : String) (page : Page) :
    StepShape (pass1Code now srcUrl page) := by
  intro m c
  rcases hsp : SPECIAL_CODES c with _ | sp
  · by_cases h1 : ((page.extract c).expires.isNone && !(page.extract c).hasValidDate
        && !isKnownPermanent c) = true
    · left
      simp [pass1Code, hsp, h1]
    · by_cases h2 : ((page.extract c).expires.isSome
          && isCodeExpired now (page.extract c).expires) = true
      · left
        simp [pass1Code, hsp, h1, h2]
      · right
        refine ⟨⟨c, (page.extract c).reward, (page.extract c).expires, srcUrl, ["PC Gamer"]⟩, ?_⟩
        simp [pass1Code, hsp, h1, h2]
  · right
    refine ⟨⟨c, sp.reward, sp.expires, sp.source, ["PC Gamer (Special)"]⟩, ?_⟩
    simp [pass1Code, hsp]

theorem pass2Code_shape (now : Int) (trusted : List (String × CodeEntry))
    (srcName srcUrl : String) (page : Page) :
    StepShape (pass2Code now trusted srcName srcUrl page) := by
  intro m c
  by_cases ht : mhas trusted c = true
  · left
    simp [pass2Code, ht]
  · rcases hc : pass2Candidate now srcName srcUrl page c with _ | cd
    · left
      simp [pass2Code, ht, hc]
    · rcases hg : mget m c with _ | ex
      · right
        refine ⟨cd, ?_⟩
        simp [pass2Code, ht, hc, hg]
      · right
        refine ⟨⟨⟨ex.entry.code, ex.entry.reward, ex.entry.expires, ex.entry.source,
          ex.entry.sites ++ [srcName]⟩, ex.count + 1, ex.hasValidDate⟩, ?_⟩
        simp [pass2Code, ht, hc, hg]

/-! ### Invariants of the two accumulation maps -/

/-- What `pcGamerCodes` guarantees for each stored binding: the record's
code is the key; a special code holds exactly the override's data,
tagged "(Special)"; a non-special code was accepted, so its `sites` is
`["PC Gamer"]` and any expiry it carries is strictly in the future. -/
def TrustedOK (now : Int) (k : String) (e : CodeEntry) : Prop :=
  e.code = k ∧
  (∀ sp, SPECIAL_CODES k = some sp →
    e.reward = sp.reward ∧ e.expires = sp.expires ∧ e.source = sp.source ∧
    e.sites = ["PC Gamer (Special)"]) ∧
  (SPECIAL_CODES k = none →
    e.sites = ["PC Gamer"] ∧ ∀ v, e.expires = some v → now < v)

/-- What `otherSiteCodes` guarantees for each stored binding. -/
def OtherOK (now : Int) (k : String) (o : OtherEntry) : Prop :=
  o.entry.code = k ∧
  (∀ sp, SPECIAL_CODES k = some sp →
    o.entry.reward = sp.reward ∧ o.entry.expires = sp.expires ∧
    o.entry.source = sp.source) ∧
  (SPECIAL_CODES k = none → ∀ v, o.entry.expires = some v → now < v)

theorem mapInv_pass1Code (now : Int) (srcUrl : String) (page : Page)
    {m : List (String × CodeEntry)} (hm : MapInv (TrustedOK now) m) (c : String) :
    MapInv (TrustedOK now) (pass1Code now srcUrl page m c) := by
  rcases hsp : SPECIAL_CODES c with _ | sp
  · by_cases h1 : ((page.extract c).expires.isNone && !(page.extract c).hasValidDate
        && !isKnownPermanent c) = true
    · simpa [pass1Code, hsp, h1] using hm
    · by_cases h2 : ((page.extract c).expires.isSome
          && isCodeExpired now (page.extract c).expires) = true
      · simpa [pass1Code, hsp, h1, h2] using hm
      · have heq : pass1Code now srcUrl page m c =
            mset m c ⟨c, (page.extract c).reward, (page.extract c).expires, srcUrl,
              ["PC Gamer"]⟩ := by
          simp [pass1Code, hsp, h1, h2]
        rw [heq]
        apply mapInv_mset hm
        refine ⟨rfl, ?_, ?_⟩
        · intro sp' hsp'
          rw [hsp] at hsp'
          cases hsp'
        · intro _
          refine ⟨rfl, ?_⟩
          intro v hv
          simp only at hv
          have hnot : ¬ (v ≤ now) := by
            intro hle
            exact h2 (by simp [hv, isCodeExpired, hle])
          omega
  · have heq : pass1Code now srcUrl page m c =
        mset m c ⟨c, sp.reward, sp.expires, sp.source, ["PC Gamer (Special)"]⟩ := by
      simp [pass1Code, hsp]
    rw [heq]
    apply mapInv_mset hm
    refine ⟨rfl, ?_, ?_⟩
    · intro sp' hsp'
      rw [hsp] at hsp'
      injection hsp' with h
      rw [← h]
      exact ⟨rfl, rfl, rfl, rfl⟩
    · intro hnone
      rw [hsp] at hnone
      cases hnone

/-- The authoritative source record, as `SOURCES.find` locates it. -/
def pcg : Source :=
  ⟨"https://www.pcgamer.com/games/fps/borderlands-4-shift-codes/", "PC Gamer", "table", 1⟩

theorem pcGamerSource?_eq : pcGamerSource? = some pcg := by rfl

theorem pass1_eq (now : Int) (env : Env) :
    pass1 now env =
      match env pcg with
      | none => []
      | some page => page.codes.foldl (pass1Code now pcg.url page) [] := by
  unfold pass1
  rw [pcGamerSource?_eq]

theorem pass1_inv (now : Int) (env : Env) : MapInv (TrustedOK now) (pass1 now env) := by
  rw [pass1_eq]
  cases henv : env pcg with
  | none => exact mapInv_nil _
  | some page =>
      show MapInv (TrustedOK now) (page.codes.foldl (pass1Code now pcg.url page) [])
      exact @foldl_pres _ _ (MapInv (TrustedOK now)) (pass1Code now pcg.url page)
        (fun m c hm => mapInv_pass1Code now pcg.url page hm c) page.codes [] (mapInv_nil _)

theorem pass1_nodup (now : Int) (env : Env) : (mkeys (pass1 now env)).Nodup := by
  rw [pass1_eq]
  cases henv : env pcg with
  | none => simp [mkeys]
  | some page =>
      show (mkeys (page.codes.foldl (pass1Code now pcg.url page) [])).Nodup
      exact foldl_nodup_mkeys (pass1Code_shape now pcg.url page) _ _ (by simp [mkeys])

theorem pass2Candidate_special (now : Int) (srcName srcUrl : String) (page : Page)
    (c : String) (sp : SpecialEntry) (hsp : SPECIAL_CODES c = some sp) :
    pass2Candidate now srcName srcUrl page c =
      some ⟨⟨c, sp.reward, sp.expires, sp.source, [srcName]⟩, 1, true⟩ := by
  simp [pass2Candidate, hsp]

/-- Any candidate `pass2Candidate` lets through is either the override
record of a special code or an accepted non-special extraction result;
in both cases `count = 1`. -/
theorem pass2Candidate_cases (now : Int) (srcName srcUrl : String) (page : Page)
    (c : String) (cd : OtherEntry) (h : pass2Candidate now srcName srcUrl page c = some cd) :
    (∃ sp, SPECIAL_CODES c = some sp ∧
      cd = ⟨⟨c, sp.reward, sp.expires, sp.source, [srcName]⟩, 1, true⟩) ∨
    (SPECIAL_CODES c = none ∧
      cd = ⟨⟨c, (page.extract c).reward, (page.extract c).expires, srcUrl, [srcName]⟩, 1,
        (page.extract c).hasValidDate⟩ ∧
      ((page.extract c).expires.isSome && isCodeExpired now (page.extract c).expires) = false) := by
  rcases hsp : SPECIAL_CODES c with _ | sp
  · by_cases h1 : ((page.extract c).expires.isNone && !(page.extract c).hasValidDate
        && !isKnownPermanent c) = true
    · have : pass2Candidate now srcName srcUrl page c = none := by
        simp [pass2Candidate, hsp, h1]
      rw [this] at h
      cases h
    · by_cases h2 : ((page.extract c).expires.isSome
          && isCodeExpired now (page.extract c).expires) = true
      · have : pass2Candidate now srcName srcUrl page c = none := by
          simp [pass2Candidate, hsp, h1, h2]
        rw [this] at h
        cases h
      · have heq : pass2Candidate now srcName srcUrl page c =
            some ⟨⟨c, (page.extract c).reward, (page.extract c).expires, srcUrl, [srcName]⟩, 1,
              (page.extract c).hasValidDate⟩ := by
          simp [pass2Candidate, hsp, h1, h2]
        rw [heq] at h
        injection h with h
        exact Or.inr ⟨rfl, h.symm, by simpa using h2⟩
  · have heq := pass2Candidate_special now srcName srcUrl page c sp hsp
    rw [heq] at h
    injection h with h
    exact Or.inl ⟨sp, rfl, h.symm⟩

theorem pass2Candidate_count (now : Int) (srcName srcUrl : String) (page : Page)
    (c : String) (cd : OtherEntry) (h : pass2Candidate now srcName srcUrl page c = some cd) :
    cd.count = 1 := by
  rcases pass2Candidate_cases now srcName srcUrl page c cd h with ⟨sp, _, hcd⟩ | ⟨_, hcd, _⟩ <;>
    rw [hcd]

theorem pass2Candidate_ok (now : Int) (srcName srcUrl : String) (page : Page)
    (c : String) (cd : OtherEntry) (h : pass2Candidate now srcName srcUrl page c = some cd) :
    OtherOK now c cd := by
  rcases pass2Candidate_cases now srcName srcUrl page c cd h with ⟨sp, hsp, hcd⟩ | ⟨hsp, hcd, h2⟩
  · refine ⟨by rw [hcd], ?_, ?_⟩
    · intro sp' hsp'
      rw [hsp] at hsp'
      injection hsp' with he
      rw [hcd, ← he]
      exact ⟨rfl, rfl, rfl⟩
    · intro hnone
      rw [hsp] at hnone
      cases hnone
  · refine ⟨by rw [hcd], ?_, ?_⟩
    · intro sp' hsp'
      rw [hsp] at hsp'
      cases hsp'
    · intro _ v hv
      rw [hcd] at hv
      simp only at hv
      have hnot : ¬ (v ≤ now) := by
        intro hle
        have : ((page.extract c).expires.isSome
            && isCodeExpired now (page.extract c).expires) = true := by
          simp [hv, isCodeExpired, hle]
        rw [this] at h2
        cases h2
      omega

/-! ### Branch equations for the Step 2 loop body -/

theorem pass2Code_skip (now : Int) (trusted : List (String × CodeEntry))
    (srcName srcUrl : String) (page : Page) (m : List (String × OtherEntry)) (c : String)
    (ht : mhas trusted c = true) :
    pass2Code now trusted srcName srcUrl page m c = m := by
  simp [pass2Code, ht]

theorem pass2Code_rej (now : Int) (trusted : List (String × CodeEntry))
    (srcName srcUrl : String) (page : Page) (m : List (String × OtherEntry)) (c : String)
    (ht : mhas trusted c = false)
    (hc : pass2Candidate now srcName srcUrl page c = none) :
    pass2Code now trusted srcName srcUrl page m c = m := by
  simp [pass2Code, ht, hc]

theorem pass2Code_ins (now : Int) (trusted : List (String × CodeEntry))
    (srcName srcUrl : String) (page : Page) (m : List (String × OtherEntry)) (c : String)
    (cd : OtherEntry) (ht : mhas trusted c = false)
    (hc : pass2Candidate now srcName srcUrl page c = some cd) (hg : mget m c = none) :
    pass2Code now trusted srcName srcUrl page m c = mset m c cd := by
  simp [pass2Code, ht, hc, hg]

theorem pass2Code_inc (now : Int) (trusted : List (String × CodeEntry))
    (srcName srcUrl : String) (page : Page) (m : List (String × OtherEntry)) (c : String)
    (cd ex : OtherEntry) (ht : mhas trusted c = false)
    (hc : pass2Candidate now srcName srcUrl page c = some cd) (hg : mget m c = some ex) :
    pass2Code now trusted srcName srcUrl page m c =
      mset m c ⟨⟨ex.entry.code, ex.entry.reward, ex.entry.expires, ex.entry.source,
        ex.entry.sites ++ [srcName]⟩, ex.count + 1, ex.hasValidDate⟩ := by
  simp [pass2Code, ht, hc, hg]

theorem mapInv_pass2Code (now : Int) (trusted : List (String × CodeEntry))
    (srcName srcUrl : String) (page : Page) {m : List (String × OtherEntry)}
    (hm : MapInv (OtherOK now) m) (c : String) :
    MapInv (OtherOK now) (pass2Code now trusted srcName srcUrl page m c) := by
  by_cases ht : mhas trusted c = true
  · rw [pass2Code_skip now trusted srcName srcUrl page m c ht]
    exact hm
  · have ht' : mhas trusted c = false := by simpa using ht
    rcases hc : pass2Candidate now srcName srcUrl page c with _ | cd
    · rw [pass2Code_rej now trusted srcName srcUrl page m c ht' hc]
      exact hm
    · rcases hg : mget m c with _ | ex
      · rw [pass2Code_ins now trusted srcName srcUrl page m c cd ht' hc hg]
        exact mapInv_mset hm _ _ (pass2Candidate_ok now srcName srcUrl page c cd hc)
      · rw [pass2Code_inc now trusted srcName srcUrl page m c cd ex ht' hc hg]
        have hex := mapInv_mget hm hg
        refine mapInv_mset hm _ _ ⟨hex.1, ?_, ?_⟩
        · intro sp hsp
          exact (hex.2.1 sp hsp)
        · intro hnone v hv
          exact hex.2.2 hnone v hv

theorem mapInv_pass2Source (now : Int) (trusted : List (String × CodeEntry)) (env : Env)
    {m : List (String × OtherEntry)} (hm : MapInv (OtherOK now) m) (src : Source) :
    MapInv (OtherOK now) (pass2Source now trusted env m src) := by
  unfold pass2Source
  cases henv : env src with
  | none => exact hm
  | some page =>
      exact @foldl_pres _ _ (MapInv (OtherOK now))
        (pass2Code now trusted src.name src.url page)
        (fun m c hmc => mapInv_pass2Code now trusted src.name src.url page hmc c)
        page.codes m hm

theorem pass2_inv (now : Int) (trusted : List (String × CodeEntry)) (env : Env) :
    MapInv (OtherOK now) (pass2 now trusted env) := by
  unfold pass2
  exact @foldl_pres _ _ (MapInv (OtherOK now)) (pass2Source now trusted env)
    (fun m src hm => mapInv_pass2Source now trusted env hm src) otherSources [] (mapInv_nil _)

theorem pass2_nodup (now : Int) (trusted : List (String × CodeEntry)) (env : Env) :
    (mkeys (pass2 now trusted env)).Nodup := by
  unfold pass2
  refine @foldl_pres _ _ (fun m => (mkeys m).Nodup) (pass2Source now trusted env)
    (fun m src hm => ?_) otherSources [] (by simp [mkeys])
  unfold pass2Source
  cases henv : env src with
  | none => exact hm
  | some page =>
      exact foldl_nodup_mkeys (pass2Code_shape now trusted src.name src.url page) _ _ hm

/-- Step 2 never stores a code that PC Gamer already handled: the skip
rule keeps `otherSiteCodes` disjoint from `pcGamerCodes`. -/
theorem pass2_skip (now : Int) (trusted : List (String × CodeEntry)) (env : Env)
    (X : String) (hX : mhas trusted X = true) :
    mhas (pass2 now trusted env) X = false := by
  unfold pass2
  refine @foldl_pres _ _ (fun m => mhas m X = false) (pass2Source now trusted env)
    (fun m src hm => ?_) otherSources [] rfl
  unfold pass2Source
  cases henv : env src with
  | none => exact hm
  | some page =>
      refine @foldl_pres _ _ (fun m => mhas m X = false)
        (pass2Code now trusted src.name src.url page) (fun m' c hm' => ?_) page.codes m hm
      by_cases hcx : c = X
      · rw [hcx, pass2Code_skip now trusted src.name src.url page m' X hX]
        exact hm'
      · rcases pass2Code_shape now trusted src.name src.url page m' c with h | ⟨v, h⟩
        · rw [h]
          exact hm'
        · rw [h, mhas_mset_ne m' c X v (fun he => hcx he.symm)]
          exact hm'

/-! ### The corroboration count never exceeds the number of extracted
occurrences across the non-authoritative sources -/

/-- The stored `count` for a code (0 if the code has no entry). -/
def countOf (m : List (String × OtherEntry)) (X : String) : Nat :=
  match mget m X with
  | some o => o.count
  | none => 0

theorem pass2Source_none (now : Int) (trusted : List (String × CodeEntry)) (env : Env)
    (m : List (String × OtherEntry)) (src : Source) (h : env src = none) :
    pass2Source now trusted env m src = m := by
  unfold pass2Source
  rw [h]

theorem pass2Source_some (now : Int) (trusted : List (String × CodeEntry)) (env : Env)
    (m : List (String × OtherEntry)) (src : Source) (page : Page) (h : env src = some page) :
    pass2Source now trusted env m src =
      page.codes.foldl (pass2Code now trusted src.name src.url page) m := by
  unfold pass2Source
  rw [h]

theorem pass2Code_countOf_le (now : Int) (trusted : List (String × CodeEntry))
    (srcName srcUrl : String) (page : Page) (m : List (String × OtherEntry))
    (c X : String) :
    countOf (pass2Code now trusted srcName srcUrl page m c) X ≤
      countOf m X + (if c = X then 1 else 0) := by
  by_cases ht : mhas trusted c = true
  · rw [pass2Code_skip now trusted srcName srcUrl page m c ht]
    omega
  · have ht' : mhas trusted c = false := by simpa using ht
    rcases hc : pass2Candidate now srcName srcUrl page c with _ | cd
    · rw [pass2Code_rej now trusted srcName srcUrl page m c ht' hc]
      omega
    · rcases hg : mget m c with _ | ex
      · rw [pass2Code_ins now trusted srcName srcUrl page m c cd ht' hc hg]
        by_cases hcx : c = X
        · rw [hcx] at hg ⊢
          have h1 := pass2Candidate_count now srcName srcUrl page c cd hc
          simp [countOf, mget_mset_self, hg, h1]
        · have : mget (mset m c cd) X = mget m X :=
            mget_mset_ne m c X cd (fun he => hcx he.symm)
          simp [countOf, this, hcx]
      · rw [pass2Code_inc now trusted srcName srcUrl page m c cd ex ht' hc hg]
        by_cases hcx : c = X
        · rw [hcx] at hg ⊢
          simp [countOf, mget_mset_self, hg]
        · have : mget (mset m c
              (⟨⟨ex.entry.code, ex.entry.reward, ex.entry.expires, ex.entry.source,
                ex.entry.sites ++ [srcName]⟩, ex.count + 1, ex.hasValidDate⟩ : OtherEntry)) X =
              mget m X :=
            mget_mset_ne m c X _ (fun he => hcx he.symm)
          simp [countOf, this, hcx]

theorem foldl_pass2Code_countOf_le (now : Int) (trusted : List (String × CodeEntry))
    (srcName srcUrl : String) (page : Page) (codes : List String)
    (m : List (String × OtherEntry)) (X : String) :
    countOf (codes.foldl (pass2Code now trusted srcName srcUrl page) m) X ≤
      countOf m X + codes.count X := by
  induction codes generalizing m with
  | nil => simp
  | cons c rest ih =>
      rw [List.foldl_cons]
      have h1 := ih (pass2Code now trusted srcName srcUrl page m c)
      have h2 := pass2Code_countOf_le now trusted srcName srcUrl page m c X
      have h3 : (c :: rest).count X = rest.count X + (if c = X then 1 else 0) := by
        by_cases hcx : c = X
        · simp [hcx, List.count_cons]
        · simp [List.count_cons, hcx, Ne.symm hcx]
      omega

/-- Total number of occurrences of the code `X` across the fetched
pages of the non-authoritative sources. -/
def totalOcc (env : Env) (X : String) : Nat :=
  (otherSources.map (fun s =>
    match env s with
    | none => 0
    | some p => p.codes.count X)).sum

theorem pass2_countOf_le (now : Int) (trusted : List (String × CodeEntry)) (env : Env)
    (X : String) : countOf (pass2 now trusted env) X ≤ totalOcc env X := by
  have main : ∀ (srcs : List Source) (m : List (String × OtherEntry)),
      countOf (srcs.foldl (pass2Source now trusted env) m) X ≤
        countOf m X + (srcs.map (fun s =>
          match env s with
          | none => 0
          | some p => p.codes.count X)).sum := by
    intro srcs
    induction srcs with
    | nil =>
        intro m
        simp
    | cons s rest ih =>
        intro m
        rw [List.foldl_cons, List.map_cons, List.sum_cons]
        cases henv : env s with
        | none =>
            rw [pass2Source_none now trusted env m s henv]
            have h1 := ih m
            omega
        | some page =>
            rw [pass2Source_some now trusted env m s page henv]
            have h1 := ih (page.codes.foldl (pass2Code now trusted s.name s.url page) m)
            have h2 := foldl_pass2Code_countOf_le now trusted s.name s.url page page.codes m X
            have hf : (match some page with
                | none => 0
                | some p => List.count X p.codes) = List.count X page.codes := rfl
            omega
  have h := main otherSources []
  have hz : countOf ([] : List (String × OtherEntry)) X = 0 := by
    simp [countOf, mget]
  unfold pass2 totalOcc
  omega

/-! ### Final assembly -/

theorem mhas_of_mem {α : Type} (m : List (String × α)) (p : String × α) (h : p ∈ m) :
    mhas m p.1 = true := by
  induction m with
  | nil => simp at h
  | cons q rest ih =>
      rcases List.mem_cons.1 h with h | h
      · rw [h]
        simp [mhas]
      · simp [mhas, ih h]

theorem mkeys_cons_nodup {α : Type} {p : String × α} {rest : List (String × α)}
    (h : (mkeys (p :: rest)).Nodup) : p.1 ∉ mkeys rest ∧ (mkeys rest).Nodup := by
  rw [show mkeys (p :: rest) = p.1 :: mkeys rest from rfl, List.nodup_cons] at h
  exact h

theorem mset_append_of_not_mhas {α : Type} (m : List (String × α)) (k : String) (v : α)
    (h : mhas m k = false) : mset m k v = m ++ [(k, v)] := by
  induction m with
  | nil => simp [mset]
  | cons p rest ih =>
      simp only [mhas, Bool.or_eq_false_iff] at h
      simp [mset, h.1, ih h.2]

theorem copy_foldl {α : Type} :
    ∀ (m acc : List (String × α)), (mkeys m).Nodup →
      (∀ k, k ∈ mkeys m → mhas acc k = false) →
      m.foldl (fun a p => mset a p.1 p.2) acc = acc ++ m
  | [], acc, _, _ => by simp
  | p :: rest, acc, hnd, hdisj => by
      rw [List.foldl_cons]
      have hp : mhas acc p.1 = false := hdisj p.1 (by simp [mkeys])
      rw [mset_append_of_not_mhas acc p.1 p.2 hp]
      have hnd' : (mkeys rest).Nodup := (mkeys_cons_nodup hnd).2
      have hdisj' : ∀ k, k ∈ mkeys rest → mhas (acc ++ [(p.1, p.2)]) k = false := by
        intro k hk
        have hk1 : k ≠ p.1 := by
          intro he
          exact (mkeys_cons_nodup hnd).1 (he ▸ hk)
        have hk2 : mhas acc k = false := hdisj k (List.mem_cons_of_mem _ hk)
        rw [mhas_eq_isSome_mget] at hk2 ⊢
        cases hget : mget (acc ++ [(p.1, p.2)]) k with
        | none => rfl
        | some v =>
            exfalso
            have hmem := mem_of_mget _ _ _ hget
            rcases List.mem_append.1 hmem with hm | hm
            · have := mhas_of_mem acc (k, v) hm
              rw [mhas_eq_isSome_mget] at this
              rw [this] at hk2
              cases hk2
            · rw [List.mem_singleton] at hm
              exact hk1 (congrArg Prod.fst hm)
      rw [copy_foldl rest (acc ++ [(p.1, p.2)]) hnd' hdisj']
      simp

/-- The `count >= 2` insertion step of the final loop. -/
def finStep (acc : List (String × CodeEntry)) (p : String × OtherEntry) :
    List (String × CodeEntry) :=
  if 2 ≤ p.2.count then mset acc p.1 p.2.entry else acc

theorem finalEntries_eq (tr : List (String × CodeEntry)) (others : List (String × OtherEntry))
    (h : (mkeys tr).Nodup) : finalEntries tr others = others.foldl finStep tr := by
  unfold finalEntries
  rw [copy_foldl tr [] h (fun k _ => rfl)]
  rfl

theorem finStep_mget_ne (acc : List (String × CodeEntry)) (p : String × OtherEntry)
    (X : String) (h : p.1 ≠ X) : mget (finStep acc p) X = mget acc X := by
  unfold finStep
  by_cases hc : 2 ≤ p.2.count
  · rw [if_pos hc, mget_mset_ne acc p.1 X p.2.entry (fun he => h he.symm)]
  · rw [if_neg hc]

theorem final_fold_mget_not_key (others : List (String × OtherEntry)) (X : String) :
    ∀ acc, (∀ p ∈ others, p.1 ≠ X) →
      mget (others.foldl finStep acc) X = mget acc X := by
  induction others with
  | nil => intro acc _; rfl
  | cons p rest ih =>
      intro acc hne
      rw [List.foldl_cons, ih _ (fun q hq => hne q (List.mem_cons_of_mem _ hq))]
      exact finStep_mget_ne acc p X (hne p (List.mem_cons_self _ _))

theorem mget_final_trusted (tr : List (String × CodeEntry))
    (others : List (String × OtherEntry)) (X : String) (htr : (mkeys tr).Nodup)
    (ho : mhas others X = false) : mget (finalEntries tr others) X = mget tr X := by
  rw [finalEntries_eq tr others htr]
  apply final_fold_mget_not_key
  intro p hp hpx
  have := mhas_of_mem others p hp
  rw [hpx] at this
  rw [this] at ho
  cases ho

theorem final_fold_mget_hit (X : String) (o : OtherEntry) :
    ∀ (others : List (String × OtherEntry)) (acc : List (String × CodeEntry)),
      (mkeys others).Nodup → mget others X = some o → 2 ≤ o.count →
      mget (others.foldl finStep acc) X = some o.entry := by
  intro others
  induction others with
  | nil =>
      intro acc _ hg
      simp [mget] at hg
  | cons p rest ih =>
      intro acc hnd hg hc
      rw [List.foldl_cons]
      by_cases hpx : (p.1 == X) = true
      · have hpe : p.1 = X := by simpa using hpx
        simp only [mget, hpx, if_true] at hg
        injection hg with hg
        have hrest : ∀ q ∈ rest, q.1 ≠ X := by
          intro q hq he
          have hmem : q.1 ∈ mkeys rest := List.mem_map_of_mem (·.1) hq
          have hout := (mkeys_cons_nodup hnd).1
          rw [hpe] at hout
          rw [he] at hmem
          exact hout hmem
        rw [final_fold_mget_not_key rest X _ hrest]
        unfold finStep
        rw [hg, if_pos hc, hpe, mget_mset_self]
      · simp only [mget, hpx, if_false] at hg
        exact ih (finStep acc p) (mkeys_cons_nodup hnd).2 hg hc

theorem final_fold_mhas_false (X : String) :
    ∀ (others : List (String × OtherEntry)) (acc : List (String × CodeEntry)),
      (mkeys others).Nodup → (∀ o, mget others X = some o → o.count < 2) →
      mhas acc X = false → mhas (others.foldl finStep acc) X = false := by
  intro others
  induction others with
  | nil =>
      intro acc _ _ h
      exact h
  | cons p rest ih =>
      intro acc hnd hlow hacc
      rw [List.foldl_cons]
      have hnd' : (mkeys rest).Nodup := (mkeys_cons_nodup hnd).2
      by_cases hpx : (p.1 == X) = true
      · have hpe : p.1 = X := by simpa using hpx
        have hcnt : p.2.count < 2 := hlow p.2 (by simp [mget, hpx])
        have hstep : finStep acc p = acc := by
          unfold finStep
          rw [if_neg (by omega)]
        rw [hstep]
        have hrest : ∀ q ∈ rest, q.1 ≠ X := by
          intro q hq he
          have hmem : q.1 ∈ mkeys rest := List.mem_map_of_mem (·.1) hq
          have hout := (mkeys_cons_nodup hnd).1
          rw [hpe] at hout
          rw [he] at hmem
          exact hout hmem
        rw [mhas_eq_isSome_mget, final_fold_mget_not_key rest X acc hrest,
          ← mhas_eq_isSome_mget]
        exact hacc
      · have hg' : ∀ o, mget rest X = some o → o.count < 2 := by
          intro o ho
          exact hlow o (by simp [mget, hpx, ho])
        have hstep : mhas (finStep acc p) X = false := by
          unfold finStep
          by_cases hc : 2 ≤ p.2.count
          · rw [if_pos hc, mhas_mset_ne acc p.1 X p.2.entry
              (fun he => (by simpa using hpx : p.1 ≠ X) he.symm)]
            exact hacc
          · rw [if_neg hc]
            exact hacc
        exact ih (finStep acc p) hnd' hg' hstep

theorem final_nodup (tr : List (String × CodeEntry)) (others : List (String × OtherEntry))
    (htr : (mkeys tr).Nodup) : (mkeys (finalEntries tr others)).Nodup := by
  rw [finalEntries_eq tr others htr]
  refine @foldl_pres _ _ (fun m => (mkeys m).Nodup) finStep (fun m p hm => ?_) others tr htr
  unfold finStep
  by_cases hc : 2 ≤ p.2.count
  · rw [if_pos hc]
    exact nodup_mkeys_mset m p.1 p.2.entry hm
  · rw [if_neg hc]
    exact hm

theorem foldl_pres_mem {α β : Type} {Q : α → Prop} {f : α → β → α} :
    ∀ (l : List β), (∀ a b, b ∈ l → Q a → Q (f a b)) → ∀ (a : α), Q a → Q (l.foldl f a) := by
  intro l
  induction l with
  | nil => intro _ a h; exact h
  | cons b rest ih =>
      intro hf a h
      rw [List.foldl_cons]
      exact ih (fun a' b' hb' => hf a' b' (List.mem_cons_of_mem _ hb')) _
        (hf a b (List.mem_cons_self _ _) h)

/-- What every binding of `finalEntries` satisfies: its code is its key,
special codes carry exactly the override's data, and non-special codes
carry no expiry that is not strictly in the future. -/
def FinalOK (now : Int) (k : String) (e : CodeEntry) : Prop :=
  e.code = k ∧
  (∀ sp, SPECIAL_CODES k = some sp →
    e.reward = sp.reward ∧ e.expires = sp.expires ∧ e.source = sp.source) ∧
  (SPECIAL_CODES k = none → ∀ v, e.expires = some v → now < v)

theorem final_inv (now : Int) (tr : List (String × CodeEntry))
    (others : List (String × OtherEntry)) (htr : (mkeys tr).Nodup)
    (h1 : MapInv (TrustedOK now) tr) (h2 : MapInv (OtherOK now) others) :
    MapInv (FinalOK now) (finalEntries tr others) := by
  rw [finalEntries_eq tr others htr]
  refine foldl_pres_mem others (fun acc p hp hacc => ?_) tr
    (fun p hp => ⟨(h1 p hp).1,
      fun sp hsp => ⟨((h1 p hp).2.1 sp hsp).1, ((h1 p hp).2.1 sp hsp).2.1,
        ((h1 p hp).2.1 sp hsp).2.2.1⟩,
      fun hn => ((h1 p hp).2.2 hn).2⟩)
  unfold finStep
  by_cases hc : 2 ≤ p.2.count
  · rw [if_pos hc]
    have ho := h2 p hp
    exact mapInv_mset hacc _ _ ⟨ho.1, ho.2.1, ho.2.2⟩
  · rw [if_neg hc]
    exact hacc

/-! ### The stable sort -/

theorem optLE_trans : ∀ x y z : Option Int,
    optLE x y = true → optLE y z = true → optLE x z = true
  | some x, some y, some z, h1, h2 => by
      simp only [optLE, decide_eq_true_eq] at h1 h2 ⊢
      omega
  | some _, some _, none, _, _ => rfl
  | some _, none, some _, _, h2 => by cases h2
  | some _, none, none, _, _ => rfl
  | none, some _, _, h1, _ => by cases h1
  | none, none, some _, _, h2 => by cases h2
  | none, none, none, _, _ => rfl

theorem optLE_total : ∀ x y : Option Int, optLE x y = true ∨ optLE y x = true
  | some x, some y => by
      simp only [optLE, decide_eq_true_eq]
      omega
  | some _, none => Or.inl rfl
  | none, some _ => Or.inr rfl
  | none, none => Or.inl rfl

theorem entryLE_trans (a b c : CodeEntry) (h1 : entryLE a b = true)
    (h2 : entryLE b c = true) : entryLE a c = true :=
  optLE_trans a.expires b.expires c.expires h1 h2

theorem entryLE_total (a b : CodeEntry) : entryLE a b = true ∨ entryLE b a = true :=
  optLE_total a.expires b.expires

theorem insertLE_perm (a : CodeEntry) (l : List CodeEntry) :
    (insertLE a l).Perm (a :: l) := by
  induction l with
  | nil => exact List.Perm.refl _
  | cons b rest ih =>
      unfold insertLE
      by_cases hab : entryLE a b = true
      · rw [if_pos hab]
      · rw [if_neg hab]
        exact List.Perm.trans (List.Perm.cons b ih) (List.Perm.swap a b rest)

theorem sortByExpiry_perm : ∀ l : List CodeEntry, (sortByExpiry l).Perm l
  | [] => List.Perm.refl _
  | a :: rest => by
      rw [sortByExpiry]
      exact List.Perm.trans (insertLE_perm a (sortByExpiry rest))
        (List.Perm.cons a (sortByExpiry_perm rest))

theorem insertLE_pairwise (a : CodeEntry) (l : List CodeEntry)
    (h : l.Pairwise (fun x y => entryLE x y = true)) :
    (insertLE a l).Pairwise (fun x y => entryLE x y = true) := by
  induction l with
  | nil => simp [insertLE]
  | cons b rest ih =>
      rw [List.pairwise_cons] at h
      unfold insertLE
      by_cases hab : entryLE a b = true
      · rw [if_pos hab]
        rw [List.pairwise_cons]
        constructor
        · intro x hx
          rcases List.mem_cons.1 hx with hx | hx
          · rw [hx]
            exact hab
          · exact entryLE_trans a b x hab (h.1 x hx)
        · rw [List.pairwise_cons]
          exact h
      · rw [if_neg hab]
        have hba : entryLE b a = true := (entryLE_total a b).resolve_left hab
        rw [List.pairwise_cons]
        constructor
        · intro x hx
          have hx' : x ∈ a :: rest := (insertLE_perm a rest).mem_iff.1 hx
          rcases List.mem_cons.1 hx' with hx' | hx'
          · rw [hx']
            exact hba
          · exact h.1 x hx'
        · exact ih h.2

theorem sortByExpiry_pairwise : ∀ l : List CodeEntry,
    (sortByExpiry l).Pairwise (fun x y => entryLE x y = true)
  | [] => by simp [sortByExpiry]
  | a :: rest => by
      rw [sortByExpiry]
      exact insertLE_pairwise a _ (sortByExpiry_pairwise rest)

theorem feedCodes_perm (env : Env) (now : Int) :
    (feedCodes env now).Perm
      ((finalEntries (pass1 now env) (pass2 now (pass1 now env) env)).map (·.2)) :=
  sortByExpiry_perm _

/-! ### Counting records in the map's value list -/

theorem mem_values_of_mget (m : List (String × CodeEntry)) (X : String) (e : CodeEntry)
    (h : mget m X = some e) : e ∈ m.map (·.2) :=
  List.mem_map_of_mem (·.2) (mem_of_mget m X e h)

theorem countP_values_zero (m : List (String × CodeEntry)) (X : String)
    (hinv : ∀ p ∈ m, p.2.code = p.1) (h : mhas m X = false) :
    (m.map (·.2)).countP (fun e => e.code == X) = 0 := by
  induction m with
  | nil => rfl
  | cons p rest ih =>
      simp only [mhas, Bool.or_eq_false_iff] at h
      rw [List.map_cons, List.countP_cons]
      have hcode : p.2.code = p.1 := hinv p (List.mem_cons_self _ _)
      have hz : (p.2.code == X) = false := by
        rw [hcode]
        exact h.1
      rw [ih (fun q hq => hinv q (List.mem_cons_of_mem _ hq)) h.2]
      simp [hz]

theorem countP_values_one (m : List (String × CodeEntry)) (X : String) (e : CodeEntry)
    (hinv : ∀ p ∈ m, p.2.code = p.1) (hnd : (mkeys m).Nodup) (hget : mget m X = some e) :
    (m.map (·.2)).countP (fun e' => e'.code == X) = 1 := by
  induction m with
  | nil => simp [mget] at hget
  | cons p rest ih =>
      rw [List.map_cons, List.countP_cons]
      by_cases hpx : (p.1 == X) = true
      · have hpe : p.1 = X := by simpa using hpx
        have hrest : mhas rest X = false := by
          cases hr : mhas rest X with
          | false => rfl
          | true =>
              exfalso
              have : X ∈ mkeys rest := (mhas_iff_mem_mkeys rest X).1 hr
              exact (mkeys_cons_nodup hnd).1 (hpe ▸ this)
        rw [countP_values_zero rest X (fun q hq => hinv q (List.mem_cons_of_mem _ hq)) hrest]
        have hcode : p.2.code = p.1 := hinv p (List.mem_cons_self _ _)
        have : (p.2.code == X) = true := by
          rw [hcode]
          exact hpx
        simp [this]
      · simp only [mget, hpx, if_false] at hget
        rw [ih (fun q hq => hinv q (List.mem_cons_of_mem _ hq)) (mkeys_cons_nodup hnd).2 hget]
        have hcode : p.2.code = p.1 := hinv p (List.mem_cons_self _ _)
        have : (p.2.code == X) = false := by
          rw [hcode]
          simpa using hpx
        simp [this]

/-! ### Override installation: both passes store a special code's
override record unconditionally -/

theorem pass1Code_special (now : Int) (srcUrl : String) (page : Page)
    (m : List (String × CodeEntry)) (c : String) (sp : SpecialEntry)
    (hsp : SPECIAL_CODES c = some sp) :
    pass1Code now srcUrl page m c =
      mset m c ⟨c, sp.reward, sp.expires, sp.source, ["PC Gamer (Special)"]⟩ := by
  simp [pass1Code, hsp]

theorem pass1_fold_special_pres (now : Int) (srcUrl : String) (page : Page) (X : String)
    (sp : SpecialEntry) (hsp : SPECIAL_CODES X = some sp) :
    ∀ (codes : List String) (m : List (String × CodeEntry)),
      mget m X = some ⟨X, sp.reward, sp.expires, sp.source, ["PC Gamer (Special)"]⟩ →
      mget (codes.foldl (pass1Code now srcUrl page) m) X =
        some ⟨X, sp.reward, sp.expires, sp.source, ["PC Gamer (Special)"]⟩ := by
  intro codes
  induction codes with
  | nil => intro m h; exact h
  | cons c rest ih =>
      intro m h
      rw [List.foldl_cons]
      apply ih
      by_cases hcx : c = X
      · rw [hcx, pass1Code_special now srcUrl page m X sp hsp, mget_mset_self]
      · rcases pass1Code_shape now srcUrl page m c with hs | ⟨v, hs⟩
        · rw [hs]
          exact h
        · rw [hs, mget_mset_ne m c X v (fun he => hcx he.symm)]
          exact h

theorem pass1_fold_special_install (now : Int) (srcUrl : String) (page : Page) (X : String)
    (sp : SpecialEntry) (hsp : SPECIAL_CODES X = some sp) :
    ∀ (codes : List String) (m : List (String × CodeEntry)), X ∈ codes →
      mget (codes.foldl (pass1Code now srcUrl page) m) X =
        some ⟨X, sp.reward, sp.expires, sp.source, ["PC Gamer (Special)"]⟩ := by
  intro codes
  induction codes with
  | nil => intro m h; simp at h
  | cons c rest ih =>
      intro m hmem
      rw [List.foldl_cons]
      by_cases hcx : c = X
      · apply pass1_fold_special_pres now srcUrl page X sp hsp
        rw [hcx, pass1Code_special now srcUrl page m X sp hsp, mget_mset_self]
      · rcases List.mem_cons.1 hmem with hh | hh
        · exact absurd hh.symm hcx
        · exact ih _ hh

/-- Pass 1 installs a special code's override record whenever PC Gamer's
page lists the code, with no expiration or signal check. -/
theorem pass1_special_mget (now : Int) (env : Env) (X : String) (sp : SpecialEntry)
    (page : Page) (hsp : SPECIAL_CODES X = some sp) (henv : env pcg = some page)
    (hmem : X ∈ page.codes) :
    mget (pass1 now env) X =
      some ⟨X, sp.reward, sp.expires, sp.source, ["PC Gamer (Special)"]⟩ := by
  rw [pass1_eq, henv]
  exact pass1_fold_special_install now pcg.url page X sp hsp page.codes [] hmem

theorem pass2_fold_special_mhas (now : Int) (trusted : List (String × CodeEntry))
    (srcName srcUrl : String) (page : Page) (X : String) (sp : SpecialEntry)
    (hsp : SPECIAL_CODES X = some sp) (ht : mhas trusted X = false) :
    ∀ (codes : List String) (m : List (String × OtherEntry)), X ∈ codes →
      mhas (codes.foldl (pass2Code now trusted srcName srcUrl page) m) X = true := by
  intro codes
  induction codes with
  | nil => intro m h; simp at h
  | cons c rest ih =>
      intro m hmem
      rw [List.foldl_cons]
      by_cases hcx : c = X
      · apply foldl_mhas_mono (pass2Code_shape now trusted srcName srcUrl page)
        rw [hcx]
        have hcand := pass2Candidate_special now srcName srcUrl page X sp hsp
        rcases hg : mget m X with _ | ex
        · rw [pass2Code_ins now trusted srcName srcUrl page m X _ ht hcand hg]
          exact mhas_mset_self m X _
        · rw [pass2Code_inc now trusted srcName srcUrl page m X _ ex ht hcand hg]
          exact mhas_mset_self m X _
      · rcases List.mem_cons.1 hmem with hh | hh
        · exact absurd hh.symm hcx
        · exact ih _ hh

theorem pass2_sources_mhas_mono (now : Int) (trusted : List (String × CodeEntry))
    (env : Env) (X : String) (srcs : List Source) (m : List (String × OtherEntry))
    (h : mhas m X = true) : mhas (srcs.foldl (pass2Source now trusted env) m) X = true := by
  refine @foldl_pres _ _ (fun m' => mhas m' X = true) (pass2Source now trusted env)
    (fun m' src hm' => ?_) srcs m h
  cases henv : env src with
  | none => rw [pass2Source_none now trusted env m' src henv]; exact hm'
  | some page =>
      rw [pass2Source_some now trusted env m' src page henv]
      exact foldl_mhas_mono (pass2Code_shape now trusted src.name src.url page) _ _ _ hm'

/-- Pass 2 accumulates a special code's override record whenever a
non-authoritative source's page lists the code not already in
`trusted`; no expiration or signal check is applied. -/
theorem pass2_special_mhas (now : Int) (trusted : List (String × CodeEntry)) (env : Env)
    (X : String) (sp : SpecialEntry) (src : Source) (page : Page)
    (hsp : SPECIAL_CODES X = some sp) (ht : mhas trusted X = false)
    (hsrc : src ∈ otherSources) (henv : env src = some page) (hmem : X ∈ page.codes) :
    mhas (pass2 now trusted env) X = true := by
  obtain ⟨l1, l2, hsplit⟩ := List.append_of_mem hsrc
  unfold pass2
  rw [hsplit, List.foldl_append, List.foldl_cons]
  apply pass2_sources_mhas_mono
  rw [pass2Source_some now trusted env _ src page henv]
  exact pass2_fold_special_mhas now trusted src.name src.url page X sp hsp ht page.codes _ hmem

theorem foldl_congr {α β : Type} {f g : α → β → α} :
    ∀ (l : List β) (a : α), (∀ x ∈ l, ∀ acc, f acc x = g acc x) →
      l.foldl f a = l.foldl g a := by
  intro l
  induction l with
  | nil => intro a _; rfl
  | cons b rest ih =>
      intro a h
      rw [List.foldl_cons, List.foldl_cons, h b (List.mem_cons_self _ _) a]
      exact ih _ (fun x hx acc => h x (List.mem_cons_of_mem _ hx) acc)

/-! ## Claims -/

/-- C5: for every code accepted from the authoritative source (PC Gamer)
through its acceptance rules, the code appears in the output exactly
once, with that source's name as its `sites` list, every Pass-2 sighting
of the code is skipped entirely (it never enters `otherSiteCodes`), and
the emitted record is the authoritative record itself — reward, expires,
source and sites unchanged. -/
theorem c5_pcgamer_authoritative (env : Env) (now : Int) (X : String) (rec : CodeEntry)
    (hX : mget (pass1 now env) X = some rec) (hns : SPECIAL_CODES X = none) :
    (feedCodes env now).countP (fun e => e.code == X) = 1 ∧
    rec ∈ feedCodes env now ∧
    rec.sites = ["PC Gamer"] ∧
    mhas (pass2 now (pass1 now env) env) X = false := by
  have htr_nodup := pass1_nodup now env
  have hinv := pass1_inv now env
  have hskip : mhas (pass2 now (pass1 now env) env) X = false :=
    pass2_skip now (pass1 now env) env X (by rw [mhas_eq_isSome_mget, hX]; rfl)
  have hfin : mget (finalEntries (pass1 now env) (pass2 now (pass1 now env) env)) X =
      some rec := by
    rw [mget_final_trusted _ _ X htr_nodup hskip]
    exact hX
  have hfinv := final_inv now (pass1 now env) (pass2 now (pass1 now env) env) htr_nodup hinv
    (pass2_inv now (pass1 now env) env)
  have hfnodup := final_nodup (pass1 now env) (pass2 now (pass1 now env) env) htr_nodup
  refine ⟨?_, ?_, ?_, hskip⟩
  · rw [List.Perm.countP_eq _ (feedCodes_perm env now)]
    exact countP_values_one _ X rec (fun p hp => (hfinv p hp).1) hfnodup hfin
  · rw [(feedCodes_perm env now).mem_iff]
    exact mem_values_of_mget _ X rec hfin
  · exact ((mapInv_mget hinv hX).2.2 hns).1

def pageC5 : Page :=
  ⟨["AAAAA-AAAAA-AAAAA-AAAAA-AAAAA"], fun _ => ⟨"1x Golden Key", some 100, "", true⟩⟩

def envC5 : Env := fun s => if s.name == "PC Gamer" then some pageC5 else none

def recC5 : CodeEntry :=
  ⟨"AAAAA-AAAAA-AAAAA-AAAAA-AAAAA", "1x Golden Key", some 100,
    "https://www.pcgamer.com/games/fps/borderlands-4-shift-codes/", ["PC Gamer"]⟩

theorem c5_pcgamer_authoritative_witness :
    mget (pass1 0 envC5) "AAAAA-AAAAA-AAAAA-AAAAA-AAAAA" = some recC5 ∧
    SPECIAL_CODES "AAAAA-AAAAA-AAAAA-AAAAA-AAAAA" = none ∧
    ((feedCodes envC5 0).countP (fun e => e.code == "AAAAA-AAAAA-AAAAA-AAAAA-AAAAA") = 1 ∧
     recC5 ∈ feedCodes envC5 0 ∧
     recC5.sites = ["PC Gamer"] ∧
     mhas (pass2 0 (pass1 0 envC5) envC5) "AAAAA-AAAAA-AAAAA-AAAAA-AAAAA" = false) :=
  ⟨by decide, by decide,
    c5_pcgamer_authoritative envC5 0 "AAAAA-AAAAA-AAAAA-AAAAA-AAAAA" recC5
      (by decide) (by decide)⟩

/-- C6: the emitted codes array is sorted ascending by expiry instant;
whenever a record precedes another, either both are dated and the
earlier one's instant is `≤` the later one's, or the later one has a
null expiry — so every null-expiry record sits after all dated ones. -/
theorem c6_feed_sorted (env : Env) (now : Int) :
    (feedCodes env now).Pairwise (fun a b =>
      (∀ x y, a.expires = some x → b.expires = some y → x ≤ y) ∧
      (a.expires = none → b.expires = none)) := by
  refine (sortByExpiry_pairwise _).imp ?_
  intro a b hab
  unfold entryLE at hab
  constructor
  · intro x y hx hy
    rw [hx, hy] at hab
    simpa [optLE] using hab
  · intro hx
    rw [hx] at hab
    cases hy : b.expires with
    | none => rfl
    | some y =>
        rw [hy] at hab
        cases hab

/-- C8: the emitted codes array is a function of the fetched source
texts and the run clock alone; the write-time stamp only affects
`updated`, so two runs over identical fixed source texts with the same
run clock produce identical `codes` arrays, differing at most in
`updated`. -/
theorem c8_feed_deterministic (env : Env) (now stamp1 stamp2 : Int) :
    (mkPayload env now stamp1).codes = (mkPayload env now stamp2).codes := rfl

def pageC1 : Page :=
  ⟨["BBBBB-BBBBB-BBBBB-BBBBB-BBBBB", "BBBBB-BBBBB-BBBBB-BBBBB-BBBBB"],
   fun _ => ⟨"1x Golden Key", some 100, "", true⟩⟩

def envC1 : Env := fun s => if s.name == "Polygon" then some pageC1 else none

/-- C1 counterexample: the code `BBBBB-…` is listed (twice, as
`html.match` returns every occurrence) by exactly one non-authoritative
source, passes the acceptance rules there, and is accepted by zero
authoritative sources — yet it appears in the emitted feed, because the
two occurrences alone drive `count` to 2. -/
theorem c1_counterexample :
    (otherSources.filter (fun s =>
        match envC1 s with
        | some p => p.codes.contains "BBBBB-BBBBB-BBBBB-BBBBB-BBBBB"
        | none => false)).length = 1 ∧
    (envC1 pcg).isNone = true ∧
    mhas (pass1 0 envC1) "BBBBB-BBBBB-BBBBB-BBBBB-BBBBB" = false ∧
    (feedCodes envC1 0).countP (fun e => e.code == "BBBBB-BBBBB-BBBBB-BBBBB-BBBBB") = 1 := by
  decide

/-- C1 amended: `count` counts accepted sightings — one per extracted
occurrence, not one per source — so the guarantee holds per occurrence:
a code not accepted by the authoritative pass, with at most one
occurrence in total across the corroborating sources' fetched pages,
never appears in the output.  (A single source listing the code twice
already reaches `count = 2` and is published, see the counterexample.) -/
theorem c1_corroboration_threshold (env : Env) (now : Int) (X : String)
    (h1 : mhas (pass1 now env) X = false) (h2 : totalOcc env X ≤ 1) :
    ∀ e ∈ feedCodes env now, e.code ≠ X := by
  intro e he heq
  have hmem := (feedCodes_perm env now).mem_iff.1 he
  obtain ⟨p, hp, hpe⟩ := List.mem_map.1 hmem
  have hfinv := final_inv now (pass1 now env) (pass2 now (pass1 now env) env)
    (pass1_nodup now env) (pass1_inv now env) (pass2_inv now (pass1 now env) env)
  have hkey : p.1 = X := by
    rw [← heq, ← hpe]
    exact ((hfinv p hp).1).symm
  have hhas : mhas (finalEntries (pass1 now env) (pass2 now (pass1 now env) env)) X
      = true := by
    rw [← hkey]
    exact mhas_of_mem _ p hp
  have hlow : ∀ o, mget (pass2 now (pass1 now env) env) X = some o → o.count < 2 := by
    intro o ho
    have hb := pass2_countOf_le now (pass1 now env) env X
    simp only [countOf, ho] at hb
    omega
  have hfalse : mhas (finalEntries (pass1 now env) (pass2 now (pass1 now env) env)) X
      = false := by
    rw [finalEntries_eq _ _ (pass1_nodup now env)]
    exact final_fold_mhas_false X _ _ (pass2_nodup now (pass1 now env) env) hlow h1
  rw [hhas] at hfalse
  cases hfalse

def pageC1w : Page :=
  ⟨["DDDDD-DDDDD-DDDDD-DDDDD-DDDDD"], fun _ => ⟨"1x Golden Key", some 100, "", true⟩⟩

def envC1w : Env := fun s => if s.name == "Polygon" then some pageC1w else none

theorem c1_corroboration_threshold_witness :
    mhas (pass1 0 envC1w) "DDDDD-DDDDD-DDDDD-DDDDD-DDDDD" = false ∧
    totalOcc envC1w "DDDDD-DDDDD-DDDDD-DDDDD-DDDDD" ≤ 1 ∧
    ∀ e ∈ feedCodes envC1w 0, e.code ≠ "DDDDD-DDDDD-DDDDD-DDDDD-DDDDD" :=
  ⟨by decide, by decide,
    c1_corroboration_threshold envC1w 0 "DDDDD-DDDDD-DDDDD-DDDDD-DDDDD"
      (by decide) (by decide)⟩

def pagePCGC2 : Page :=
  ⟨["CCCCC-CCCCC-CCCCC-CCCCC-CCCCC"], fun _ => ⟨"1x Golden Key", some (-5), "", true⟩⟩

def pageOKC2 : Page :=
  ⟨["CCCCC-CCCCC-CCCCC-CCCCC-CCCCC"], fun _ => ⟨"1x Golden Key", some 100, "", true⟩⟩

def envC2 : Env := fun s =>
  if s.name == "PC Gamer" then some pagePCGC2
  else if s.name == "PCGamesN" then some pageOKC2
  else if s.name == "Polygon" then some pageOKC2
  else none

/-- C2 counterexample: PC Gamer lists `CCCCC-…` with an expired date
(`-5 ≤ 0`), so Pass 1 rejects it and `trusted` does not hold it; two
non-authoritative sources then pass it through the acceptance rules —
and the code appears in the emitted feed, refuting "never appears in
the output". -/
theorem c2_counterexample :
    "CCCCC-CCCCC-CCCCC-CCCCC-CCCCC" ∈ pagePCGC2.codes ∧
    isCodeExpired 0 ((pagePCGC2.extract "CCCCC-CCCCC-CCCCC-CCCCC-CCCCC").expires) = true ∧
    mhas (pass1 0 envC2) "CCCCC-CCCCC-CCCCC-CCCCC-CCCCC" = false ∧
    (feedCodes envC2 0).countP (fun e => e.code == "CCCCC-CCCCC-CCCCC-CCCCC-CCCCC") = 1 := by
  decide

/-- C2 amended: an authoritative rejection only leaves the code out of
`trusted`; the Pass-2 skip rule tests membership in `trusted` alone, so
a code the authoritative source rejected still reaches the output
whenever the corroborating sources accumulate an entry for it with
`count ≥ 2`. -/
theorem c2_rejection_not_blocking (env : Env) (now : Int) (X : String) (o : OtherEntry)
    (_h1 : mhas (pass1 now env) X = false)
    (ho : mget (pass2 now (pass1 now env) env) X = some o) (hc : 2 ≤ o.count) :
    o.entry ∈ feedCodes env now := by
  have hfin : mget (finalEntries (pass1 now env) (pass2 now (pass1 now env) env)) X =
      some o.entry := by
    rw [finalEntries_eq _ _ (pass1_nodup now env)]
    exact final_fold_mget_hit X o _ _ (pass2_nodup now (pass1 now env) env) ho hc
  rw [(feedCodes_perm env now).mem_iff]
  exact mem_values_of_mget _ X o.entry hfin

def oC2 : OtherEntry :=
  ⟨⟨"CCCCC-CCCCC-CCCCC-CCCCC-CCCCC", "1x Golden Key", some 100,
    "https://www.pcgamesn.com/borderlands-4/shift-codes", ["PCGamesN", "Polygon"]⟩, 2, true⟩

theorem c2_rejection_not_blocking_witness :
    mhas (pass1 0 envC2) "CCCCC-CCCCC-CCCCC-CCCCC-CCCCC" = false ∧
    mget (pass2 0 (pass1 0 envC2) envC2) "CCCCC-CCCCC-CCCCC-CCCCC-CCCCC" = some oC2 ∧
    2 ≤ oC2.count ∧
    oC2.entry ∈ feedCodes envC2 0 :=
  ⟨by decide, by decide, by decide,
    c2_rejection_not_blocking envC2 0 "CCCCC-CCCCC-CCCCC-CCCCC-CCCCC" oC2
      (by decide) (by decide) (by decide)⟩

def pageC3 : Page :=
  ⟨["JS63J-JSCWJ-CFTBW-3TJ3J-WJS5R"], fun _ => ⟨"1x Golden Key", none, "", false⟩⟩

def grSrc : Source :=
  ⟨"https://www.gamesradar.com/games/borderlands/borderlands-4-shift-codes-golden-keys/",
    "GamesRadar", "gamesradar", 2⟩

def envC3 : Env := fun s => if s.name == "GamesRadar" then some pageC3 else none

/-- C3 counterexample: the override code `JS63J-…` is in `SPECIAL_CODES`
and is extracted from one corroborating source's text during the run,
yet the emitted feed is empty — the override entry is still subject to
the `count ≥ 2` rule in Pass 2, so "always appears in the output" fails. -/
theorem c3_counterexample :
    (SPECIAL_CODES "JS63J-JSCWJ-CFTBW-3TJ3J-WJS5R").isSome = true ∧
    grSrc ∈ otherSources ∧
    (envC3 grSrc).any (fun p => p.codes.contains "JS63J-JSCWJ-CFTBW-3TJ3J-WJS5R") = true ∧
    feedCodes envC3 0 = [] := by
  decide

/-- C3 amended: whenever a `SPECIAL_CODES` code appears in the output at
all, its record carries exactly the override's reward, expires and
source — no extractor output can alter them; but the code only reaches
the output when the authoritative page lists it or when it accumulates
`count ≥ 2` in Pass 2, so a run in which no source text contains it (or
only a single corroborating sighting exists) omits it. -/
theorem c3_override_values_exact (env : Env) (now : Int) (e : CodeEntry) (sp : SpecialEntry)
    (he : e ∈ feedCodes env now) (hsp : SPECIAL_CODES e.code = some sp) :
    e.reward = sp.reward ∧ e.expires = sp.expires ∧ e.source = sp.source := by
  have hmem := (feedCodes_perm env now).mem_iff.1 he
  obtain ⟨p, hp, hpe⟩ := List.mem_map.1 hmem
  have hfinv := final_inv now (pass1 now env) (pass2 now (pass1 now env) env)
    (pass1_nodup now env) (pass1_inv now env) (pass2_inv now (pass1 now env) env)
  have hok := hfinv p hp
  have hkey : p.1 = e.code := by
    rw [← hpe]
    exact (hok.1).symm
  have hvals := hok.2.1 sp (by rw [hkey]; exact hsp)
  rw [hpe] at hvals
  exact hvals

def pageSP : Page :=
  ⟨["JS63J-JSCWJ-CFTBW-3TJ3J-WJS5R"], fun _ => ⟨"wrong reward", some 1, "", true⟩⟩

def envSP : Env := fun s => if s.name == "PC Gamer" then some pageSP else none

def recSP : CodeEntry :=
  ⟨"JS63J-JSCWJ-CFTBW-3TJ3J-WJS5R", "Break Free Cosmetic Pack", some specialExpiresMillis,
    "https://www.pcgamer.com/games/fps/borderlands-4-shift-codes/", ["PC Gamer (Special)"]⟩

def spJS : SpecialEntry :=
  ⟨"Break Free Cosmetic Pack", some specialExpiresMillis,
    "https://www.pcgamer.com/games/fps/borderlands-4-shift-codes/"⟩

theorem c3_override_values_exact_witness :
    recSP ∈ feedCodes envSP 0 ∧
    SPECIAL_CODES recSP.code = some spJS ∧
    (recSP.reward = spJS.reward ∧ recSP.expires = spJS.expires ∧ recSP.source = spJS.source) :=
  ⟨by decide, by decide,
    c3_override_values_exact envSP 0 recSP spJS (by decide) (by decide)⟩

/-- C4 counterexample: at a run clock past the Break Free override's
expiry instant, the emitted feed still contains a record whose non-null
`expires` is `≤` the run clock — the override entry bypasses the
expiration test (`isCodeExpired` reports it expired). -/
theorem c4_counterexample :
    specialExpiresMillis ≤ 2000000000000 ∧
    (feedCodes envSP 2000000000000).any
      (fun e => isCodeExpired 2000000000000 e.expires) = true := by
  decide

/-- C4 amended: every non-override record of the emitted feed carries no
expiry that is not strictly in the future — records with a past or
present non-null `expires` are excluded; only records installed from the
`SPECIAL_CODES` override table bypass the expiration test and may carry
a past `expires`. -/
theorem c4_no_expired_nonspecial (env : Env) (now : Int) (e : CodeEntry)
    (he : e ∈ feedCodes env now) (hns : SPECIAL_CODES e.code = none) (v : Int)
    (hv : e.expires = some v) : now < v := by
  have hmem := (feedCodes_perm env now).mem_iff.1 he
  obtain ⟨p, hp, hpe⟩ := List.mem_map.1 hmem
  have hfinv := final_inv now (pass1 now env) (pass2 now (pass1 now env) env)
    (pass1_nodup now env) (pass1_inv now env) (pass2_inv now (pass1 now env) env)
  have hok := hfinv p hp
  have hkey : p.1 = e.code := by
    rw [← hpe]
    exact (hok.1).symm
  have hns' : SPECIAL_CODES p.1 = none := by
    rw [hkey]
    exact hns
  exact hok.2.2 hns' v (by rw [hpe]; exact hv)

theorem c4_no_expired_nonspecial_witness :
    recC5 ∈ feedCodes envC5 0 ∧
    SPECIAL_CODES recC5.code = none ∧
    recC5.expires = some 100 ∧
    (0 : Int) < 100 :=
  ⟨by decide, by decide, by decide,
    c4_no_expired_nonspecial envC5 0 recC5 (by decide) (by decide) 100 (by decide)⟩

/-- A successfully fetched page with no extracted codes: processing it
is a no-op in either pass. -/
def inertPage : Page := ⟨[], fun _ => ⟨"1x Golden Key", none, "", false⟩⟩

/-- C9: a source whose fetch fails contributes zero findings and does
not alter any other source's processing: the emitted feed equals the
feed of the run in which that source instead returns a page with no
extracted codes.  (The pipeline is a total function, so a feed is
emitted either way.) -/
theorem c9_fetch_failure_isolated (env : Env) (s : Source) (now : Int)
    (h : env s = none) :
    feedCodes env now = feedCodes (Function.update env s (some inertPage)) now := by
  have htr : pass1 now env = pass1 now (Function.update env s (some inertPage)) := by
    rw [pass1_eq, pass1_eq]
    by_cases hs : pcg = s
    · rw [← hs] at h
      rw [h, ← hs, Function.update_same]
      rfl
    · rw [Function.update_noteq hs]
  have hoth : pass2 now (pass1 now env) env =
      pass2 now (pass1 now env) (Function.update env s (some inertPage)) := by
    unfold pass2
    apply foldl_congr
    intro src _ acc
    by_cases hss : src = s
    · rw [hss, pass2Source_none now (pass1 now env) env acc s h,
        pass2Source_some now (pass1 now env) (Function.update env s (some inertPage)) acc s
          inertPage (Function.update_same s (some inertPage) env)]
      rfl
    · have hup : Function.update env s (some inertPage) src = env src :=
        Function.update_noteq hss _ _
      unfold pass2Source
      rw [hup]
  unfold feedCodes
  rw [← htr, ← hoth]

def envFail : Env := fun _ => none

def polySrc : Source :=
  ⟨"https://www.polygon.com/borderlands-4-active-shift-codes-redeem/", "Polygon", "polygon", 2⟩

theorem c9_fetch_failure_isolated_witness :
    (envFail polySrc).isNone = true ∧
    feedCodes envFail 0 = feedCodes (Function.update envFail polySrc (some inertPage)) 0 :=
  ⟨by decide, c9_fetch_failure_isolated envFail polySrc 0 rfl⟩

/-- C10: both passes install a `SPECIAL_CODES` override record without
the expiration test or the trusted-signal rule: even at a run clock at
which the override's `expires` is already past (`isCodeExpired` holds),
Pass 1 installs the override into `pcGamerCodes` whenever PC Gamer's
page lists the code — and it then reaches the feed — and Pass 2
accumulates it into `otherSiteCodes` whenever a corroborating source
lists the code and it is absent from `trusted`. -/
theorem c10_override_bypasses_expiry (env : Env) (now : Int) (X : String) (sp : SpecialEntry)
    (hsp : SPECIAL_CODES X = some sp) (_hexp : isCodeExpired now sp.expires = true) :
    (∀ page, env pcg = some page → X ∈ page.codes →
      mget (pass1 now env) X =
        some ⟨X, sp.reward, sp.expires, sp.source, ["PC Gamer (Special)"]⟩ ∧
      (⟨X, sp.reward, sp.expires, sp.source, ["PC Gamer (Special)"]⟩ : CodeEntry) ∈
        feedCodes env now) ∧
    (∀ src page, src ∈ otherSources → env src = some page → X ∈ page.codes →
      mhas (pass1 now env) X = false →
      mhas (pass2 now (pass1 now env) env) X = true) := by
  constructor
  · intro page henv hmem
    have hget := pass1_special_mget now env X sp page hsp henv hmem
    refine ⟨hget, ?_⟩
    have hskip : mhas (pass2 now (pass1 now env) env) X = false :=
      pass2_skip now (pass1 now env) env X (by rw [mhas_eq_isSome_mget, hget]; rfl)
    have hfin : mget (finalEntries (pass1 now env) (pass2 now (pass1 now env) env)) X =
        some ⟨X, sp.reward, sp.expires, sp.source, ["PC Gamer (Special)"]⟩ := by
      rw [mget_final_trusted _ _ X (pass1_nodup now env) hskip]
      exact hget
    rw [(feedCodes_perm env now).mem_iff]
    exact mem_values_of_mget _ X _ hfin
  · intro src page hsrc henv hmem ht
    exact pass2_special_mhas now (pass1 now env) env X sp src page hsp ht hsrc henv hmem

theorem c10_override_bypasses_expiry_witness :
    SPECIAL_CODES "JS63J-JSCWJ-CFTBW-3TJ3J-WJS5R" = some spJS ∧
    isCodeExpired 2000000000000 spJS.expires = true ∧
    mget (pass1 2000000000000 envSP) "JS63J-JSCWJ-CFTBW-3TJ3J-WJS5R" = some recSP ∧
    recSP ∈ feedCodes envSP 2000000000000 :=
  ⟨by decide, by decide,
    ((c10_override_bypasses_expiry envSP 2000000000000 "JS63J-JSCWJ-CFTBW-3TJ3J-WJS5R" spJS
        (by decide) (by decide)).1 pageSP rfl (by decide)).1,
    ((c10_override_bypasses_expiry envSP 2000000000000 "JS63J-JSCWJ-CFTBW-3TJ3J-WJS5R" spJS
        (by decide) (by decide)).1 pageSP rfl (by decide)).2⟩

/-! ## The standard date normalizer (`parseStandardDate`)

The function receives a phrase (or `null`), tests it against the
permanence keywords `/NEW|Unlisted|Permanent/i` and the long-horizon
sentinel `/Dec 31, 2030|December 31, 2030/i`, expands the month
abbreviations `Sept`/`Oct`/`Nov`/`Dec` (each `/…\b/gi`) after `trim()`,
and hands the cleaned phrase to the JavaScript `Date` constructor.  The
constructor is an external collaborator, abstracted as
`jsParse : List Char → Option JSDate` returning the parsed calendar year
(`getFullYear()`) and the instant after `setHours(23,59,59,999)`, or
`none` for an Invalid Date. -/

/-- A parsed JavaScript `Date`, reduced to the data the normalizer
uses: the calendar year and the end-of-day instant it serializes. -/
structure JSDate where
  year : Int
  endOfDayMillis : Int
deriving DecidableEq

/-- The fixed long-horizon sentinel instant `"2030-12-31T23:59:59.999Z"`. -/
def sentinelDate : JSDate := ⟨2030, 1924991999999⟩

/-- Word characters for the regex `\b` boundary. -/
def isWordChar (c : Char) : Bool := c.isAlphanum || c == '_'

/-- Case-insensitive prefix match of `pat` against `s`. -/
def matchesCIAt : List Char → List Char → Bool
  | [], _ => true
  | _ :: _, [] => false
  | p :: ps, c :: cs => (p.toLower == c.toLower) && matchesCIAt ps cs

/-- Case-insensitive substring test, i.e. `/pat/i.test(s)` for a
literal pattern `pat`. -/
def containsCI : List Char → List Char → Bool
  | [], pat => pat.isEmpty
  | c :: cs, pat => matchesCIAt pat (c :: cs) || containsCI cs pat

/-- `\b` right after a match: next character absent or not a word
character. -/
def boundaryAfter : List Char → Bool
  | [] => true
  | d :: _ => !isWordChar d

/-- Scanner for `replaceWordCI`, structurally recursive on a fuel
bounded below by the scanned list's length (each step consumes at least
one character). -/
def replaceWordCIAux (p : Char) (ps rep : List Char) : Nat → List Char → List Char
  | 0, s => s
  | _ + 1, [] => []
  | fuel + 1, c :: cs =>
      if matchesCIAt (p :: ps) (c :: cs) && boundaryAfter (cs.drop ps.length) then
        rep ++ replaceWordCIAux p ps rep fuel (cs.drop ps.length)
      else c :: replaceWordCIAux p ps rep fuel cs

/-- `str.replace(/P…\b/gi, rep)` for the literal pattern `p :: ps`:
every case-insensitive occurrence followed by a word boundary is
replaced by `rep`, scanning left to right without rescanning the
replacement. -/
def replaceWordCI (p : Char) (ps rep s : List Char) : List Char :=
  replaceWordCIAux p ps rep s.length s

/-- JavaScript whitespace for `trim()` (the ASCII part; the sources'
phrases contain no exotic whitespace). -/
def isJsSpace (c : Char) : Bool :=
  c == ' ' || c == '\t' || c == '\n' || c == '\r'

/-- `dateStr.trim()`. -/
def jsTrim (s : List Char) : List Char :=
  ((s.dropWhile isJsSpace).reverse.dropWhile isJsSpace).reverse

/-- `/NEW|Unlisted|Permanent/i.test(dateStr)`. -/
def hasPermKeyword (s : String) : Bool :=
  containsCI s.toList "NEW".toList || containsCI s.toList "Unlisted".toList ||
    containsCI s.toList "Permanent".toList

/-- `/Dec 31, 2030|December 31, 2030/i.test(dateStr)`. -/
def hasSentinel (s : String) : Bool :=
  containsCI s.toList "Dec 31, 2030".toList ||
    containsCI s.toList "December 31, 2030".toList

/-- The cleaned phrase handed to the `Date` constructor: `trim()` then
the four month-abbreviation expansions, in source order. -/
def cleanDateStr (s : String) : List Char :=
  replaceWordCI 'D' "ec".toList "December".toList
    (replaceWordCI 'N' "ov".toList "November".toList
      (replaceWordCI 'O' "ct".toList "October".toList
        (replaceWordCI 'S' "ept".toList "September".toList (jsTrim s.toList))))

/-- `parseStandardDate(dateStr)`: null in, null out; permanence keywords
mean "no expiration" (null); the long-horizon sentinel returns its fixed
instant; otherwise the cleaned phrase is parsed and the result kept only
when valid and its year lies strictly between 2020 and 2040. -/
def parseStandardDate (jsParse : List Char → Option JSDate) (dateStr : Option String) :
    Option JSDate :=
  match dateStr with
  | none => none
  | some s =>
      if hasPermKeyword s then none
      else if hasSentinel s then some sentinelDate
      else
        match jsParse (cleanDateStr s) with
        | none => none
        | some d => if 2020 < d.year ∧ d.year < 2040 then some d else none

theorem parseStandardDate_some (jsParse : List Char → Option JSDate) (s : String) :
    parseStandardDate jsParse (some s) =
      if hasPermKeyword s then none
      else if hasSentinel s then some sentinelDate
      else
        match jsParse (cleanDateStr s) with
        | none => none
        | some d => if 2020 < d.year ∧ d.year < 2040 then some d else none := rfl

/-- C7: for every non-null, non-permanence-keyword date phrase, the
standard date normalizer returns a non-null instant only when that
instant's year lies strictly between 2020 and 2040 (the sentinel's
fixed instant has year 2030); and for a non-sentinel phrase, a parse
failure or a parsed year outside the open interval yields null, for
every behaviour of the date constructor. -/
theorem c7_year_sanity_bound (jsParse : List Char → Option JSDate) (s : String)
    (hperm : hasPermKeyword s = false) :
    (∀ d, parseStandardDate jsParse (some s) = some d → 2020 < d.year ∧ d.year < 2040) ∧
    (hasSentinel s = false →
      (jsParse (cleanDateStr s) = none ∨
        (∀ d, jsParse (cleanDateStr s) = some d → d.year ≤ 2020 ∨ 2040 ≤ d.year)) →
      parseStandardDate jsParse (some s) = none) := by
  constructor
  · intro d hd
    rw [parseStandardDate_some] at hd
    rw [if_neg (by simp [hperm])] at hd
    by_cases hsent : hasSentinel s = true
    · rw [if_pos hsent] at hd
      injection hd with hd
      rw [← hd]
      exact ⟨by norm_num [sentinelDate], by norm_num [sentinelDate]⟩
    · rw [if_neg hsent] at hd
      rcases hj : jsParse (cleanDateStr s) with _ | d'
      · rw [hj] at hd
        cases hd
      · rw [hj] at hd
        have hd' : (if 2020 < d'.year ∧ d'.year < 2040 then some d' else none) = some d := hd
        by_cases hy : 2020 < d'.year ∧ d'.year < 2040
        · rw [if_pos hy] at hd'
          injection hd' with hd'
          rw [← hd']
          exact hy
        · rw [if_neg hy] at hd'
          cases hd'
  · intro hsent hout
    rw [parseStandardDate_some]
    rw [if_neg (by simp [hperm]), if_neg (by simp [hsent])]
    rcases hj : jsParse (cleanDateStr s) with _ | d
    · rfl
    · rcases hout with hout | hout
      · rw [hout] at hj
        cases hj
      · have hy := hout d hj
        show (if 2020 < d.year ∧ d.year < 2040 then some d else none) = none
        rw [if_neg (by omega)]

def jsParseW : List Char → Option JSDate :=
  fun t => if t == "October 1, 2050".toList then some ⟨2050, 2548799999999⟩ else none

theorem c7_year_sanity_bound_witness :
    hasPermKeyword "Oct 1, 2050" = false ∧
    hasSentinel "Oct 1, 2050" = false ∧
    jsParseW (cleanDateStr "Oct 1, 2050") = some ⟨2050, 2548799999999⟩ ∧
    parseStandardDate jsParseW (some "Oct 1, 2050") = none :=
  ⟨by decide, by decide, by decide,
    (c7_year_sanity_bound jsParseW "Oct 1, 2050" (by decide)).2 (by decide)
      (Or.inr (fun d hd => by
        have hc : jsParseW (cleanDateStr "Oct 1, 2050") = some ⟨2050, 2548799999999⟩ := by
          decide
        rw [hc] at hd
        injection hd with hd
        rw [← hd]
        right
        decide))⟩

end ShiftCodes
